import Mathlib

/-!
Shallow embedding of the Laval frontend node-configuration query client
(`src/packages/frontend/src/App.tsx`) together with the parts of the
ECMAScript runtime it relies on (`JSON.parse`, `JSON.stringify(v, null, 2)`,
`String.prototype.trim`), and proofs of the specified properties.

Modelling conventions:
* Machine strings are Lean `String`/`List Char`.  A finite JSON number is
  kept as its lexical token: the builtin prints a finite double as the
  shortest decimal that re-reads to the same double, so token spelling can
  differ from the builtin display, but both re-read to the same value, and
  the model equality distinguishes at least as much as deep-equality of the
  narrowed values.  The one case where IEEE-754 narrowing changes what a
  round trip yields, a literal whose value reaches the double rounding
  threshold `2^1024 - 2^970` and becomes `Infinity` (which the builtin then
  prints as `null`), is modelled exactly by the `numOverflow` marker.
* `\uXXXX` escapes decode through `Char.ofNat` (lone surrogates are idealized
  to the default character, as Lean chars are Unicode scalar values).
* The asynchronous submit handler is embedded as the list of state
  writes, transport dispatches and toast notifications it performs, in
  program order; React state setters are interpreted over an explicit state.
-/

namespace Laval

/-! ### JSON values (the image of `JSON.parse`) -/

/-- A JavaScript JSON value.  Finite numbers keep their lexical token;
a numeric literal whose value overflows the IEEE-754 double range parses
to `Infinity`/`-Infinity`, modelled by `numOverflow`.  Strings are decoded
character lists, objects keep fields in source order. -/
inductive JsonValue : Type where
  | null : JsonValue
  | jbool (b : Bool) : JsonValue
  | num (tok : List Char) : JsonValue
  | numOverflow (neg : Bool) : JsonValue
  | str (s : List Char) : JsonValue
  | arr (elems : List JsonValue) : JsonValue
  | obj (fields : List (List Char × JsonValue)) : JsonValue

/-! ### Lexical helpers -/

/-- JSON insignificant whitespace (RFC 8259 / `JSON.parse`). -/
def isWs (c : Char) : Bool :=
  c = ' ' || c = '\t' || c = '\n' || c = '\r'

/-- Drop leading JSON whitespace. -/
def skipWs : List Char → List Char
  | [] => []
  | c :: cs => if isWs c then skipWs cs else c :: cs

def isDigit (c : Char) : Bool := '0' ≤ c && c ≤ '9'

/-- Characters that can occur inside a JSON number token. -/
def isNumChar (c : Char) : Bool :=
  isDigit c || c = '-' || c = '+' || c = '.' || c = 'e' || c = 'E'

/-- Longest run of number-token characters at the head of the input. -/
def takeNum : List Char → List Char × List Char
  | [] => ([], [])
  | c :: cs =>
    if isNumChar c then
      let p := takeNum cs
      (c :: p.1, p.2)
    else ([], c :: cs)

/-- Drop leading decimal digits. -/
def dropDigits : List Char → List Char
  | [] => []
  | c :: cs => if isDigit c then dropDigits cs else c :: cs

/-- Check the integer part of a JSON number (`0` or nonzero digit run),
returning the rest of the token. -/
def chkInt : List Char → Option (List Char)
  | [] => none
  | c :: cs =>
    if c = '0' then some cs
    else if isDigit c then some (dropDigits cs)
    else none

/-- Check an optional fraction part. -/
def chkFrac : List Char → Option (List Char)
  | '.' :: c :: cs => if isDigit c then some (dropDigits cs) else none
  | l => some l

def chkExpTail : List Char → Option (List Char)
  | [] => none
  | '+' :: c :: cs => if isDigit c then some (dropDigits cs) else none
  | '-' :: c :: cs => if isDigit c then some (dropDigits cs) else none
  | c :: cs => if isDigit c then some (dropDigits cs) else none

/-- Check an optional exponent part. -/
def chkExp : List Char → Option (List Char)
  | 'e' :: rest => chkExpTail rest
  | 'E' :: rest => chkExpTail rest
  | l => some l

/-- Whole-token check against the JSON number grammar. -/
def validNumTok : List Char → Bool
  | [] => false
  | c :: cs =>
  let afterSign := if c = '-' then cs else c :: cs
  match chkInt afterSign with
  | none => false
  | some r1 =>
    match chkFrac r1 with
    | none => false
    | some r2 =>
      match chkExp r2 with
      | none => false
      | some r3 => r3.isEmpty

/-- Read a run of decimal digits, accumulating value and digit count. -/
def readDigits : List Char → Nat → Nat → Nat × Nat × List Char
  | [], acc, k => (acc, k, [])
  | c :: cs, acc, k =>
    if isDigit c then readDigits cs (acc * 10 + (c.toNat - 48)) (k + 1)
    else (acc, k, c :: cs)

/-- Decompose a (valid) number token into mantissa and decimal exponent:
the token denotes `mantissa * 10 ^ exponent` in absolute value. -/
def tokMantissaExp (tok : List Char) : Nat × Int :=
  let unsigned :=
    match tok with
    | c :: cs => if c = '-' then cs else c :: cs
    | [] => []
  let ip := readDigits unsigned 0 0
  let fp :=
    match ip.2.2 with
    | '.' :: cs => readDigits cs ip.1 0
    | l => (ip.1, 0, l)
  let e10 : Int :=
    match fp.2.2 with
    | _ :: '+' :: ds => ((readDigits ds 0 0).1 : Int)
    | _ :: '-' :: ds => -(((readDigits ds 0 0).1 : Int))
    | _ :: ds => ((readDigits ds 0 0).1 : Int)
    | [] => 0
  (fp.1, e10 - (fp.2.1 : Int))

/-- Exponentiation by squaring, fuelled so it is structurally recursive
and the kernel can evaluate large powers without deep recursion; proved
equal to `Nat.pow` in `powFast_eq`. -/
def powAux : Nat → Nat → Nat → Nat
  | 0, _, _ => 1
  | fuel + 1, b, n =>
    if n = 0 then 1
    else
      let h := powAux fuel b (n / 2)
      if n % 2 = 0 then h * h else h * h * b

def powFast (b n : Nat) : Nat := powAux n b n

/-- The IEEE-754 binary64 overflow threshold: a real of magnitude at least
`2^emax * (2 - 2^(1-p)/2) = 2^1024 - 2^970` rounds to infinity under
round-to-nearest-even (IEEE 754-2019, 4.3.1). -/
def overflowThreshold : Nat := powFast 2 1024 - powFast 2 970

/-- Exact decision of whether a number token narrows to `Infinity` when
converted to a double, by integer comparison against the threshold. -/
def tokOverflows (tok : List Char) : Bool :=
  let me := tokMantissaExp tok
  if 0 ≤ me.2 then decide (overflowThreshold ≤ me.1 * powFast 10 me.2.toNat)
  else decide (overflowThreshold * powFast 10 (-me.2).toNat ≤ me.1)

/-- Parse a number token from the head of the input; a token whose value
overflows the double range yields the `Infinity` marker, as the builtin
narrows it. -/
def parseNum (input : List Char) : Option (JsonValue × List Char) :=
  let p := takeNum input
  if validNumTok p.1 then
    if tokOverflows p.1 then
      some (.numOverflow (p.1.head? == some '-'), p.2)
    else some (.num p.1, p.2)
  else none

/-- Value of a hexadecimal digit (codepoint arithmetic: digits, then the
lowercase and the uppercase letter ranges). -/
def fromHexDigit (c : Char) : Option Nat :=
  let n := c.toNat
  if 48 ≤ n && n ≤ 57 then some (n - 48)
  else if 97 ≤ n && n ≤ 102 then some (n - 87)
  else if 65 ≤ n && n ≤ 70 then some (n - 55)
  else none

/-- Decode a single-character escape (`\"`, `\\`, `\/`, `\b`, `\f`, `\n`,
`\r`, `\t`). -/
def escDecode (e : Char) : Option Char :=
  if e = '"' then some '"'
  else if e = '\\' then some '\\'
  else if e = '/' then some '/'
  else if e = 'b' then some '\x08'
  else if e = 'f' then some '\x0c'
  else if e = 'n' then some '\n'
  else if e = 'r' then some '\r'
  else if e = 't' then some '\t'
  else none

/-- Parse the body of a JSON string (input starts after the opening quote);
returns the decoded characters and the input after the closing quote.
Raw control characters are rejected, as in `JSON.parse`. -/
def parseStrBody : List Char → Option (List Char × List Char)
  | [] => none
  | c :: rest =>
    if c = '"' then some ([], rest)
    else if c = '\\' then
      match rest with
      | [] => none
      | e :: rest2 =>
        if e = 'u' then
          match rest2 with
          | a :: b :: d3 :: d4 :: rest3 =>
            match fromHexDigit a, fromHexDigit b, fromHexDigit d3,
                fromHexDigit d4 with
            | some x1, some x2, some x3, some x4 =>
              match parseStrBody rest3 with
              | some (s, r) =>
                some (Char.ofNat (x1 * 4096 + x2 * 256 + x3 * 16 + x4) :: s, r)
              | none => none
            | _, _, _, _ => none
          | _ => none
        else
          match escDecode e with
          | some d =>
            match parseStrBody rest2 with
            | some (s, r) => some (d :: s, r)
            | none => none
          | none => none
    else if c.toNat < 32 then none
    else
      match parseStrBody rest with
      | some (s, r) => some (c :: s, r)
      | none => none

/-- Consume an expected literal character sequence. -/
def eatLit : List Char → List Char → Option (List Char)
  | [], l => some l
  | _ :: _, [] => none
  | p :: ps, c :: cs => if c = p then eatLit ps cs else none

/-- Parse one object field (input starts after the key's opening quote);
`pv` parses the field's value. -/
def parseField (pv : List Char → Option (JsonValue × List Char))
    (input : List Char) : Option ((List Char × JsonValue) × List Char) :=
  match parseStrBody input with
  | none => none
  | some (k, r) =>
    match skipWs r with
    | [] => none
    | c :: r2 =>
      if c = ':' then
        match pv r2 with
        | some (v, r3) => some ((k, v), r3)
        | none => none
      else none

/-- Parse the continuation of an array after its first element:
either `]` or a `,`-separated tail.  `pv` parses one element. -/
def parseMembers (pv : List Char → Option (JsonValue × List Char)) :
    Nat → List Char → Option (List JsonValue × List Char)
  | 0, _ => none
  | fuel + 1, input =>
    match skipWs input with
    | [] => none
    | c :: rest =>
      if c = ']' then some ([], rest)
      else if c = ',' then
        match pv rest with
        | some (v, r) =>
          match parseMembers pv fuel r with
          | some (vs, r2) => some (v :: vs, r2)
          | none => none
        | none => none
      else none

/-- Parse the continuation of an object after its first field:
either `}` or a `,`-separated tail of fields. -/
def parseFields (pv : List Char → Option (JsonValue × List Char)) :
    Nat → List Char → Option (List (List Char × JsonValue) × List Char)
  | 0, _ => none
  | fuel + 1, input =>
    match skipWs input with
    | [] => none
    | c :: rest =>
      if c = '\x7d' then some ([], rest)
      else if c = ',' then
        match skipWs rest with
        | [] => none
        | c2 :: rest2 =>
          if c2 = '"' then
            match parseField pv rest2 with
            | some ((k, v), r) =>
              match parseFields pv fuel r with
              | some (fs, r2) => some ((k, v) :: fs, r2)
              | none => none
            | none => none
          else none
      else none

/-- Parse one JSON value (leading whitespace allowed), fuelled.  Mirrors the
recursive-descent grammar accepted by `JSON.parse`. -/
def parseValue : Nat → List Char → Option (JsonValue × List Char)
  | 0, _ => none
  | fuel + 1, input =>
    match skipWs input with
    | [] => none
    | c :: rest =>
      if c = 'n' then
        match eatLit ['u', 'l', 'l'] rest with
        | some r => some (.null, r)
        | none => none
      else if c = 't' then
        match eatLit ['r', 'u', 'e'] rest with
        | some r => some (.jbool true, r)
        | none => none
      else if c = 'f' then
        match eatLit ['a', 'l', 's', 'e'] rest with
        | some r => some (.jbool false, r)
        | none => none
      else if c = '"' then
        match parseStrBody rest with
        | some (s, r) => some (.str s, r)
        | none => none
      else if c = '[' then
        match skipWs rest with
        | [] => none
        | c2 :: rest2 =>
          if c2 = ']' then some (.arr [], rest2)
          else
            match parseValue fuel (c2 :: rest2) with
            | some (v, r) =>
              match parseMembers (parseValue fuel) fuel r with
              | some (vs, r2) => some (.arr (v :: vs), r2)
              | none => none
            | none => none
      else if c = '\x7b' then
        match skipWs rest with
        | [] => none
        | c2 :: rest2 =>
          if c2 = '\x7d' then some (.obj [], rest2)
          else if c2 = '"' then
            match parseField (parseValue fuel) rest2 with
            | some ((k, v), r) =>
              match parseFields (parseValue fuel) fuel r with
              | some (fs, r2) => some (.obj ((k, v) :: fs), r2)
              | none => none
            | none => none
          else none
      else if isDigit c || c = '-' then parseNum (c :: rest)
      else none

/-- `JSON.parse` on a character list: one value, then only trailing
whitespace.  The fuel `length + 1` always suffices (each recursive call
consumes at least one character first). -/
def parseTop (l : List Char) : Option JsonValue :=
  match parseValue (l.length + 1) l with
  | some (v, rest) => if (skipWs rest).isEmpty then some v else none
  | none => none

/-- The model of `JSON.parse`: `some` a value on success, `none` where the
JavaScript builtin throws a `SyntaxError`. -/
def JSON.parse (s : String) : Option JsonValue := parseTop s.data

/-! ### Printing (`JSON.stringify(v, null, 2)`) -/

/-- Lowercase hexadecimal digit character. -/
def hexDigitChar (n : Nat) : Char :=
  Char.ofNat (if n < 10 then 48 + n else 87 + n)

/-- Four-digit lowercase hexadecimal rendering (for `\u00XX` escapes). -/
def toHex4 (n : Nat) : List Char :=
  [hexDigitChar (n / 4096 % 16), hexDigitChar (n / 256 % 16),
   hexDigitChar (n / 16 % 16), hexDigitChar (n % 16)]

/-- Escape one character as `JSON.stringify` does: quote, backslash and the
named control escapes, `\u00XX` for other control characters, and everything
else verbatim. -/
def escChar (c : Char) : List Char :=
  if c = '"' then ['\\', '"']
  else if c = '\\' then ['\\', '\\']
  else if c = '\x08' then ['\\', 'b']
  else if c = '\t' then ['\\', 't']
  else if c = '\n' then ['\\', 'n']
  else if c = '\x0c' then ['\\', 'f']
  else if c = '\r' then ['\\', 'r']
  else if c.toNat < 32 then '\\' :: 'u' :: toHex4 c.toNat
  else [c]

def escString : List Char → List Char
  | [] => []
  | c :: cs => escChar c ++ escString cs

/-- A quoted, escaped JSON string literal. -/
def quoteStr (s : List Char) : List Char := '"' :: (escString s ++ ['"'])

/-- `n` spaces. -/
def indent (n : Nat) : List Char := List.replicate n ' '

mutual

/-- Render a value as `JSON.stringify(v, null, 2)` does, at indentation
level `ind` (the level of the line the value starts on). -/
def prettyVal (ind : Nat) : JsonValue → List Char
  | .null => ['n', 'u', 'l', 'l']
  | .jbool true => ['t', 'r', 'u', 'e']
  | .jbool false => ['f', 'a', 'l', 's', 'e']
  | .num tok => tok
  | .numOverflow _ => ['n', 'u', 'l', 'l']
  | .str s => quoteStr s
  | .arr [] => ['[', ']']
  | .arr (v :: vs) =>
    '[' :: '\n' :: (indent (ind + 2) ++
      (prettyVal (ind + 2) v ++ (prettyMembers (ind + 2) vs ++
        ('\n' :: (indent ind ++ [']'])))))
  | .obj [] => ['\x7b', '\x7d']
  | .obj (f :: fs) =>
    '\x7b' :: '\n' :: (indent (ind + 2) ++
      (quoteStr f.1 ++ (':' :: ' ' :: (prettyVal (ind + 2) f.2 ++
        (prettyFields (ind + 2) fs ++ ('\n' :: (indent ind ++ ['\x7d'])))))))

/-- Second and later array elements, each on its own indented line. -/
def prettyMembers (ind : Nat) : List JsonValue → List Char
  | [] => []
  | v :: vs =>
    ',' :: '\n' :: (indent ind ++ (prettyVal ind v ++ prettyMembers ind vs))

/-- Second and later object fields, each on its own indented line. -/
def prettyFields (ind : Nat) : List (List Char × JsonValue) → List Char
  | [] => []
  | f :: fs =>
    ',' :: '\n' :: (indent ind ++ (quoteStr f.1 ++ (':' :: ' ' ::
      (prettyVal ind f.2 ++ prettyFields ind fs))))

end

/-- The model of `JSON.stringify(v, null, 2)` on parsed values.  A finite
number prints as its stored token; an overflowed number is `Infinity`,
which the builtin prints as `null`. -/
def JSON.stringify2 (v : JsonValue) : String := String.mk (prettyVal 0 v)

/-! ### Well-formedness of parsed values

Every value `JSON.parse` produces satisfies `wfV`: its number tokens are
made of number characters and match the JSON number grammar.  This is what
makes the printed form re-readable. -/

mutual

def wfV : JsonValue → Bool
  | .null => true
  | .jbool _ => true
  | .num tok => tok.all isNumChar && validNumTok tok && !tokOverflows tok
  | .numOverflow _ => true
  | .str _ => true
  | .arr vs => wfM vs
  | .obj fs => wfF fs

def wfM : List JsonValue → Bool
  | [] => true
  | v :: vs => wfV v && wfM vs

def wfF : List (List Char × JsonValue) → Bool
  | [] => true
  | f :: fs => wfV f.2 && wfF fs

end

/-! ### Finite values

A parsed value round-trips through the display exactly when no numeric
literal in it overflowed to `Infinity`: an overflowed number displays as
`null`, which re-reads as `null`. -/

mutual

def finiteV : JsonValue → Bool
  | .numOverflow _ => false
  | .arr vs => finiteM vs
  | .obj fs => finiteF fs
  | _ => true

def finiteM : List JsonValue → Bool
  | [] => true
  | v :: vs => finiteV v && finiteM vs

def finiteF : List (List Char × JsonValue) → Bool
  | [] => true
  | f :: fs => finiteV f.2 && finiteF fs

end

/-! ### Fuel bounds for reparsing printed output -/

mutual

def boundV : JsonValue → Nat
  | .null => 1
  | .jbool _ => 1
  | .num _ => 1
  | .numOverflow _ => 1
  | .str _ => 1
  | .arr [] => 1
  | .arr (v :: vs) => 1 + boundV v + boundM vs
  | .obj [] => 1
  | .obj (f :: fs) => 1 + boundV f.2 + boundF fs

def boundM : List JsonValue → Nat
  | [] => 1
  | v :: vs => 1 + boundV v + boundM vs

def boundF : List (List Char × JsonValue) → Nat
  | [] => 1
  | f :: fs => 1 + boundV f.2 + boundF fs

end

/-- Safe continuation for a printed value: nothing that could extend a
number token. -/
def restSafe : JsonValue → List Char → Bool
  | .num _, c :: _ => !isNumChar c
  | _, _ => true

/-! ### The generated protobuf surface used by the component
(`@/gen/proto/manager_pb`; protobuf enums are open `int32` sets) -/

abbrev PortMappingMode := Int

def PortMappingMode.UNSPECIFIED : PortMappingMode := 0
def PortMappingMode.SERVER : PortMappingMode := 1
def PortMappingMode.CLIENT : PortMappingMode := 2

structure PortMapping where
  mode : PortMappingMode
  configJson : String
deriving DecidableEq

structure GetNodeConfigResponse where
  name : String
  portMapping : Option PortMapping
deriving DecidableEq

/-! ### `App.tsx`: mode labels -/

/-- `MODE_LABELS`: the record literal keyed by the three enum members;
lookup of any other key misses (yields `undefined`). -/
def MODE_LABELS (mode : PortMappingMode) : Option String :=
  if mode = PortMappingMode.UNSPECIFIED then some "Unspecified"
  else if mode = PortMappingMode.SERVER then some "Server"
  else if mode = PortMappingMode.CLIENT then some "Client"
  else none

/-- `getModeLabel`: `MODE_LABELS[mode] ?? 'Unknown'`. -/
def getModeLabel (mode : PortMappingMode) : String :=
  (MODE_LABELS mode).getD "Unknown"

/-! ### `App.tsx`: `portMappingDetails` (the `useMemo` interpretation step) -/

structure MappingDetails where
  hasConfig : Bool
  isJson : Bool
  pretty : String
deriving DecidableEq

/-- The `useMemo` body: classify `portMapping` into the three display
states; the `try/catch` around `JSON.parse` becomes a `match` on `Option`. -/
def portMappingDetails (portMapping : Option PortMapping) : MappingDetails :=
  match portMapping with
  | none => { hasConfig := false, isJson := true, pretty := "" }
  | some pm =>
    if pm.configJson = "" then
      { hasConfig := true, isJson := true, pretty := "（空配置）" }
    else
      match JSON.parse pm.configJson with
      | some parsed =>
        { hasConfig := true, isJson := true, pretty := JSON.stringify2 parsed }
      | none =>
        { hasConfig := true, isJson := false, pretty := pm.configJson }

/-- The port-mapping section of the render tree: either the fixed
"no port-mapping configured" paragraph or the mode label plus details. -/
inductive MappingView where
  | noMapping
  | mapping (modeLabel : String) (details : MappingDetails)
deriving DecidableEq

def renderPortMapping (pm : Option PortMapping) : MappingView :=
  match pm with
  | none => .noMapping
  | some m => .mapping (getModeLabel m.mode) (portMappingDetails (some m))

/-- The derived binding `const portMapping = response?.portMapping`. -/
def currentPortMapping (response : Option GetNodeConfigResponse) :
    Option PortMapping :=
  match response with
  | none => none
  | some r => r.portMapping

/-! ### `String.prototype.trim` (ECMAScript white space and line
terminators) -/

def isJsSpace (c : Char) : Bool :=
  c = '\t' || c = '\n' || c = '\x0b' || c = '\x0c' || c = '\r' || c = ' ' ||
  c = Char.ofNat 0xa0 || c = Char.ofNat 0x1680 ||
  (0x2000 ≤ c.toNat && c.toNat ≤ 0x200a) ||
  c = Char.ofNat 0x2028 || c = Char.ofNat 0x2029 || c = Char.ofNat 0x202f ||
  c = Char.ofNat 0x205f || c = Char.ofNat 0x3000 || c = Char.ofNat 0xfeff

/-- `nodeName.trim()`. -/
def jsTrim (s : String) : String :=
  String.mk (((s.data.dropWhile isJsSpace).reverse.dropWhile isJsSpace).reverse)

/-! ### `App.tsx`: `handleSubmit`

The async handler is embedded as the sequence of externally visible actions
it performs in program order: React state writes, the transport dispatch,
and toast notifications.  The transport outcome is an oracle
`rpc : String → Except RpcError GetNodeConfigResponse` mapping the
dispatched name to what `await nodeManagerClient.getNodeConfig(...)`
returns or throws. -/

/-- Shapes a thrown value can have at the `catch` site: a `ConnectError`
(which carries `rawMessage`), any other `Error` (which carries `message`),
or a value that is neither. -/
inductive RpcError where
  | connectError (rawMessage : String)
  | otherError (message : String)
  | unknownThrow
deriving DecidableEq

inductive ToastKind where
  | success
  | info
  | error
deriving DecidableEq

inductive Event where
  | setLoading (b : Bool)
  | setErrorMessage (m : Option String)
  | setResponse (r : Option GetNodeConfigResponse)
  | rpcCall (name : String)
  | toast (kind : ToastKind) (message : String)
deriving DecidableEq

/-- The `catch` block's message selection: `ConnectError` → `rawMessage`,
other `Error` → `message`, anything else → the fixed fallback. -/
def errorToMessage (err : RpcError) : String :=
  let message := "无法获取节点配置"
  match err with
  | .connectError raw => raw
  | .otherError msg => msg
  | .unknownThrow => message

/-- `handleSubmit` as its trace of actions. -/
def handleSubmit (nodeName : String)
    (rpc : String → Except RpcError GetNodeConfigResponse) : List Event :=
  let trimmed := jsTrim nodeName
  if trimmed = "" then
    [.setErrorMessage (some "请输入节点名称"), .setResponse none,
     .toast .error "请输入节点名称"]
  else
    [.setLoading true, .setErrorMessage none, .rpcCall trimmed] ++
    (match rpc trimmed with
     | .ok result =>
       [.setResponse (some result),
        .toast .success ("已加载节点「" ++
          (if result.name = "" then trimmed else result.name) ++ "」的配置")] ++
       (match result.portMapping with
        | none => [.toast .info "该节点没有配置端口映射"]
        | some _ => [])
     | .error err =>
       [.setErrorMessage (some (errorToMessage err)),
        .setResponse none,
        .toast .error (errorToMessage err)]) ++
    [.setLoading false]

/-- The component state touched by `handleSubmit`. -/
structure ClientState where
  loading : Bool
  errorMessage : Option String
  response : Option GetNodeConfigResponse
deriving DecidableEq

/-- Interpret one action over the component state (toasts and the
transport dispatch do not change React state). -/
def applyEvent (s : ClientState) : Event → ClientState
  | .setLoading b => { s with loading := b }
  | .setErrorMessage m => { s with errorMessage := m }
  | .setResponse r => { s with response := r }
  | .rpcCall _ => s
  | .toast _ _ => s

/-- The state after a submission completes. -/
def runSubmit (st : ClientState) (nodeName : String)
    (rpc : String → Except RpcError GetNodeConfigResponse) : ClientState :=
  (handleSubmit nodeName rpc).foldl applyEvent st

/-- Names dispatched to the transport during a trace. -/
def rpcCalls (evs : List Event) : List String :=
  evs.filterMap fun e =>
    match e with
    | .rpcCall n => some n
    | _ => none

/-- Messages of the toasts of one kind, in order. -/
def toastsOf (k : ToastKind) (evs : List Event) : List String :=
  evs.filterMap fun e =>
    match e with
    | .toast k2 m => if k2 = k then some m else none
    | _ => none

/-! ## Proof layer -/

theorem skipWs_cons_of_not {c : Char} (l : List Char) (h : isWs c = false) :
    skipWs (c :: l) = c :: l := by
  simp [skipWs, h]

theorem skipWs_append_of_all {pre : List Char} (l : List Char)
    (h : pre.all isWs = true) : skipWs (pre ++ l) = skipWs l := by
  induction pre with
  | nil => rfl
  | cons c cs ih =>
    simp only [List.all_cons, Bool.and_eq_true] at h
    simp [skipWs, h.1, ih h.2]

theorem all_isWs_indent (n : Nat) : (indent n).all isWs = true := by
  simp only [indent, List.all_eq_true]
  intro c hc
  rw [List.eq_of_mem_replicate hc]
  decide

theorem skipWs_ws_cons {pre : List Char} {c : Char} (l : List Char)
    (hpre : pre.all isWs = true) (hc : isWs c = false) :
    skipWs (pre ++ c :: l) = c :: l := by
  rw [skipWs_append_of_all _ hpre, skipWs_cons_of_not _ hc]

theorem fromHexDigit_hexDigitChar {d : Nat} (h : d < 16) :
    fromHexDigit (hexDigitChar d) = some d := by
  interval_cases d <;> decide

theorem powAux_eq (fuel : Nat) : ∀ n b, n ≤ fuel → powAux fuel b n = b ^ n := by
  induction fuel with
  | zero =>
    intro n b h
    interval_cases n
    rfl
  | succ f ih =>
    intro n b h
    by_cases h0 : n = 0
    · subst h0
      simp [powAux]
    · have hle : n / 2 ≤ f := by omega
      simp only [powAux, if_neg h0]
      rw [ih (n / 2) b hle]
      by_cases he : n % 2 = 0
      · rw [if_pos he, ← pow_add]
        congr 1
        omega
      · rw [if_neg he, ← pow_add, ← pow_succ]
        congr 1
        omega

theorem powFast_eq (b n : Nat) : powFast b n = b ^ n :=
  powAux_eq n n b le_rfl

theorem overflowThreshold_eq : overflowThreshold = 2 ^ 1024 - 2 ^ 970 := by
  simp [overflowThreshold, powFast_eq]

theorem parseStrBody_quote (rest : List Char) :
    parseStrBody ('"' :: rest) = some ([], rest) := by
  rw [parseStrBody.eq_def]
  simp

theorem parseStrBody_escDecode {e d : Char} (rest : List Char)
    (he : escDecode e = some d) :
    parseStrBody ('\\' :: e :: rest) =
      match parseStrBody rest with
      | some (s, r) => some (d :: s, r)
      | none => none := by
  have hu : e ≠ 'u' := by
    intro h
    rw [h] at he
    simp [escDecode] at he
  rw [parseStrBody.eq_def]
  simp [he, hu]

theorem parseStrBody_u {a b c d : Char} {x1 x2 x3 x4 : Nat} (rest : List Char)
    (ha : fromHexDigit a = some x1) (hb : fromHexDigit b = some x2)
    (hc : fromHexDigit c = some x3) (hd : fromHexDigit d = some x4) :
    parseStrBody ('\\' :: 'u' :: a :: b :: c :: d :: rest) =
      match parseStrBody rest with
      | some (s, r) =>
        some (Char.ofNat (x1 * 4096 + x2 * 256 + x3 * 16 + x4) :: s, r)
      | none => none := by
  rw [parseStrBody.eq_def]
  simp [ha, hb, hc, hd]

theorem parseStrBody_plain {c : Char} (rest : List Char) (h1 : c ≠ '"')
    (h2 : c ≠ '\\') (h3 : ¬c.toNat < 32) :
    parseStrBody (c :: rest) =
      match parseStrBody rest with
      | some (s, r) => some (c :: s, r)
      | none => none := by
  rw [parseStrBody.eq_def]
  simp [h1, h2, h3]

theorem parseStrBody_escString (s : List Char) (rest : List Char) :
    parseStrBody (escString s ++ ('"' :: rest)) = some (s, rest) := by
  induction s with
  | nil => exact parseStrBody_quote rest
  | cons c cs ih =>
    show parseStrBody ((escChar c ++ escString cs) ++ ('"' :: rest)) = _
    rw [List.append_assoc]
    unfold escChar
    split
    · next h =>
      subst h
      simp only [List.cons_append, List.nil_append]
      rw [parseStrBody_escDecode _ (show escDecode '"' = some '"' by decide), ih]
    · split
      · next h =>
        subst h
        simp only [List.cons_append, List.nil_append]
        rw [parseStrBody_escDecode _ (show escDecode '\\' = some '\\' by decide), ih]
      · split
        · next h =>
          subst h
          simp only [List.cons_append, List.nil_append]
          rw [parseStrBody_escDecode _
            (show escDecode 'b' = some '\x08' by decide), ih]
        · split
          · next h =>
            subst h
            simp only [List.cons_append, List.nil_append]
            rw [parseStrBody_escDecode _
              (show escDecode 't' = some '\t' by decide), ih]
          · split
            · next h =>
              subst h
              simp only [List.cons_append, List.nil_append]
              rw [parseStrBody_escDecode _
                (show escDecode 'n' = some '\n' by decide), ih]
            · split
              · next h =>
                subst h
                simp only [List.cons_append, List.nil_append]
                rw [parseStrBody_escDecode _
                  (show escDecode 'f' = some '\x0c' by decide), ih]
              · split
                · next h =>
                  subst h
                  simp only [List.cons_append, List.nil_append]
                  rw [parseStrBody_escDecode _
                    (show escDecode 'r' = some '\r' by decide), ih]
                · split
                  · next hlt =>
                    simp only [toHex4, List.cons_append, List.nil_append]
                    rw [parseStrBody_u _ (fromHexDigit_hexDigitChar (by omega))
                        (fromHexDigit_hexDigitChar (by omega))
                        (fromHexDigit_hexDigitChar (by omega))
                        (fromHexDigit_hexDigitChar (by omega)), ih]
                    have he : c.toNat / 4096 % 16 * 4096 + c.toNat / 256 % 16 * 256 +
                        c.toNat / 16 % 16 * 16 + c.toNat % 16 = c.toNat := by
                      omega
                    rw [he, Char.ofNat_toNat]
                  · next h1 h2 h3 h4 h5 h6 h7 hge =>
                    simp only [List.singleton_append]
                    rw [parseStrBody_plain _ h1 h2 (by omega), ih]

theorem restSafe_nil (v : JsonValue) : restSafe v [] = true := by
  cases v <;> rfl

theorem restSafe_of_head (v : JsonValue) {c : Char} (l : List Char)
    (h : isNumChar c = false) : restSafe v (c :: l) = true := by
  cases v <;> simp [restSafe, h]

theorem takeNum_append {tok : List Char} (rest : List Char)
    (hall : tok.all isNumChar = true)
    (hr : ∀ c l, rest = c :: l → isNumChar c = false) :
    takeNum (tok ++ rest) = (tok, rest) := by
  induction tok with
  | nil =>
    cases rest with
    | nil => rfl
    | cons c l => simp [takeNum, hr c l rfl]
  | cons c cs ih =>
    simp only [List.all_cons, Bool.and_eq_true] at hall
    simp [takeNum, hall.1, ih hall.2]

theorem parseNum_tok {tok : List Char} (rest : List Char)
    (hall : tok.all isNumChar = true) (hv : validNumTok tok = true)
    (hov : tokOverflows tok = false)
    (hr : ∀ c l, rest = c :: l → isNumChar c = false) :
    parseNum (tok ++ rest) = some (.num tok, rest) := by
  simp [parseNum, takeNum_append rest hall hr, hv, hov]

theorem validNumTok_nil : validNumTok [] = false := rfl

theorem validNumTok_head {c : Char} {l : List Char}
    (h : validNumTok (c :: l) = true) : (isDigit c || c = '-') = true := by
  by_cases hc : c = '-'
  · simp [hc]
  · rw [validNumTok] at h
    simp only [if_neg hc] at h
    rw [chkInt] at h
    by_cases h0 : c = '0'
    · subst h0; simp [isDigit]
    · rw [if_neg h0] at h
      by_cases hd : isDigit c = true
      · simp [hd]
      · rw [if_neg hd] at h
        simp at h

theorem not_ws_of_numChar {c : Char} (h : isNumChar c = true) :
    isWs c = false := by
  by_contra hw
  rw [Bool.not_eq_false] at hw
  simp only [isWs, Bool.or_eq_true, decide_eq_true_eq] at hw
  obtain ((h1 | h1) | h1) | h1 := hw <;> (subst h1; exact absurd h (by decide))

theorem numChar_of_start {c : Char} (h : (isDigit c || c = '-') = true) :
    isNumChar c = true := by
  simp only [isNumChar, Bool.or_eq_true] at *
  tauto

theorem numStart_facts {c : Char} (h : (isDigit c || c = '-') = true) :
    c ≠ 'n' ∧ c ≠ 't' ∧ c ≠ 'f' ∧ c ≠ '"' ∧ c ≠ '[' ∧ c ≠ '\x7b' ∧
      isWs c = false := by
  refine ⟨?_, ?_, ?_, ?_, ?_, ?_, not_ws_of_numChar (numChar_of_start h)⟩ <;>
    (intro e; subst e; exact absurd h (by decide))

theorem numChar_ne_bracket {c : Char} (h : isNumChar c = true) : c ≠ ']' := by
  intro e; subst e; exact absurd h (by decide)

/-- Every printed value starts with a non-whitespace character that is not
a closing bracket. -/
theorem prettyVal_head (ind : Nat) (v : JsonValue) (h : wfV v = true) :
    ∃ c l, prettyVal ind v = c :: l ∧ isWs c = false ∧ c ≠ ']' := by
  match v with
  | .null => exact ⟨'n', _, rfl, by decide, by decide⟩
  | .numOverflow b => exact ⟨'n', _, rfl, by decide, by decide⟩
  | .jbool true => exact ⟨'t', _, rfl, by decide, by decide⟩
  | .jbool false => exact ⟨'f', _, rfl, by decide, by decide⟩
  | .str s => exact ⟨'"', _, rfl, by decide, by decide⟩
  | .arr [] => exact ⟨'[', _, rfl, by decide, by decide⟩
  | .arr (v :: vs) => exact ⟨'[', _, rfl, by decide, by decide⟩
  | .obj [] => exact ⟨'\x7b', _, rfl, by decide, by decide⟩
  | .obj (f :: fs) => exact ⟨'\x7b', _, rfl, by decide, by decide⟩
  | .num tok =>
    simp only [wfV, Bool.and_eq_true] at h
    cases tok with
    | nil => exact absurd h.1.2 (by simp [validNumTok_nil])
    | cons c l =>
      have hnc : isNumChar c = true := by
        have := h.1.1
        simp only [List.all_cons, Bool.and_eq_true] at this
        exact this.1
      exact ⟨c, l, rfl, not_ws_of_numChar hnc, numChar_ne_bracket hnc⟩

theorem one_le_boundV (v : JsonValue) : 1 ≤ boundV v := by
  match v with
  | .null | .jbool _ | .num _ | .numOverflow _ | .str _ => simp [boundV]
  | .arr [] | .obj [] => simp [boundV]
  | .arr (v :: vs) | .obj (f :: fs) => simp only [boundV]; omega

theorem one_le_boundM (vs : List JsonValue) : 1 ≤ boundM vs := by
  cases vs <;> (simp only [boundM]; omega)

theorem one_le_boundF (fs : List (List Char × JsonValue)) : 1 ≤ boundF fs := by
  cases fs <;> (simp only [boundF]; omega)

theorem skipWs_nl_indent {c : Char} (n : Nat) (l : List Char)
    (hc : isWs c = false) :
    skipWs ('\n' :: (indent n ++ (c :: l))) = c :: l := by
  have h1 : skipWs ('\n' :: (indent n ++ (c :: l))) =
      skipWs (indent n ++ (c :: l)) := by
    simp [skipWs, isWs]
  rw [h1, skipWs_ws_cons _ (all_isWs_indent n) hc]

theorem restSafe_members (v : JsonValue) (i : Nat) (vs : List JsonValue)
    (l : List Char) :
    restSafe v (prettyMembers i vs ++ ('\n' :: l)) = true := by
  cases vs with
  | nil =>
    simp only [prettyMembers, List.nil_append]
    exact restSafe_of_head v l (by decide)
  | cons w ws =>
    simp only [prettyMembers, List.cons_append]
    exact restSafe_of_head v _ (by decide)

theorem restSafe_fields (v : JsonValue) (i : Nat)
    (fs : List (List Char × JsonValue)) (l : List Char) :
    restSafe v (prettyFields i fs ++ ('\n' :: l)) = true := by
  cases fs with
  | nil =>
    simp only [prettyFields, List.nil_append]
    exact restSafe_of_head v l (by decide)
  | cons g gs =>
    simp only [prettyFields, List.cons_append]
    exact restSafe_of_head v _ (by decide)

theorem restSafe_num {t rest : List Char} (h : restSafe (.num t) rest = true) :
    ∀ c l, rest = c :: l → isNumChar c = false := by
  intro c l e
  subst e
  simpa [restSafe] using h

/-! Step lemmas: how `parseValue` and friends behave on each token head. -/

theorem parseValue_ws (fuel : Nat) (pre input : List Char)
    (hpre : pre.all isWs = true) :
    parseValue fuel (pre ++ input) = parseValue fuel input := by
  cases fuel with
  | zero => rfl
  | succ f =>
    simp only [parseValue]
    rw [skipWs_append_of_all _ hpre]

theorem parseValue_space (fuel : Nat) (input : List Char) :
    parseValue fuel (' ' :: input) = parseValue fuel input :=
  parseValue_ws fuel [' '] input (by decide)

theorem parseValue_nl_indent (fuel n : Nat) (input : List Char) :
    parseValue fuel ('\n' :: (indent n ++ input)) = parseValue fuel input := by
  have h : ('\n' :: (indent n ++ input)) = ('\n' :: indent n) ++ input := by
    simp
  rw [h]
  refine parseValue_ws fuel _ input ?_
  simp [List.all_cons, all_isWs_indent n, isWs]

theorem parseValue_null (f : Nat) (rest : List Char) :
    parseValue (f + 1) ('n' :: 'u' :: 'l' :: 'l' :: rest) =
      some (.null, rest) := by
  simp only [parseValue]
  rw [skipWs_cons_of_not _ (by decide)]
  simp [eatLit]

theorem parseValue_true (f : Nat) (rest : List Char) :
    parseValue (f + 1) ('t' :: 'r' :: 'u' :: 'e' :: rest) =
      some (.jbool true, rest) := by
  simp only [parseValue]
  rw [skipWs_cons_of_not _ (by decide)]
  simp [eatLit]

theorem parseValue_false (f : Nat) (rest : List Char) :
    parseValue (f + 1) ('f' :: 'a' :: 'l' :: 's' :: 'e' :: rest) =
      some (.jbool false, rest) := by
  simp only [parseValue]
  rw [skipWs_cons_of_not _ (by decide)]
  simp [eatLit]

theorem parseValue_quote (f : Nat) (tail : List Char) :
    parseValue (f + 1) ('"' :: tail) =
      match parseStrBody tail with
      | some (s, r) => some (.str s, r)
      | none => none := by
  simp only [parseValue]
  rw [skipWs_cons_of_not _ (by decide)]
  simp

theorem parseValue_numStart {c : Char} (f : Nat) (tail : List Char)
    (h : (isDigit c || c = '-') = true) :
    parseValue (f + 1) (c :: tail) = parseNum (c :: tail) := by
  obtain ⟨h1, h2, h3, h4, h5, h6, hws⟩ := numStart_facts h
  simp only [parseValue]
  rw [skipWs_cons_of_not _ hws]
  simp [h1, h2, h3, h4, h5, h6, h]

theorem parseValue_open_bracket (f : Nat) (tail : List Char) :
    parseValue (f + 1) ('[' :: tail) =
      match skipWs tail with
      | [] => none
      | c2 :: rest2 =>
        if c2 = ']' then some (.arr [], rest2)
        else
          match parseValue f (c2 :: rest2) with
          | some (v, r) =>
            match parseMembers (parseValue f) f r with
            | some (vs, r2) => some (.arr (v :: vs), r2)
            | none => none
          | none => none := by
  simp only [parseValue]
  rw [skipWs_cons_of_not _ (by decide)]
  simp

theorem parseValue_open_brace (f : Nat) (tail : List Char) :
    parseValue (f + 1) ('\x7b' :: tail) =
      match skipWs tail with
      | [] => none
      | c2 :: rest2 =>
        if c2 = '\x7d' then some (.obj [], rest2)
        else if c2 = '"' then
          match parseField (parseValue f) rest2 with
          | some ((k, v), r) =>
            match parseFields (parseValue f) f r with
            | some (fs, r2) => some (.obj ((k, v) :: fs), r2)
            | none => none
          | none => none
        else none := by
  simp only [parseValue]
  rw [skipWs_cons_of_not _ (by decide)]
  simp

theorem parseMembers_nl_close (pv : List Char → Option (JsonValue × List Char))
    (f j : Nat) (rest : List Char) :
    parseMembers pv (f + 1) ('\n' :: (indent j ++ (']' :: rest))) =
      some ([], rest) := by
  simp only [parseMembers]
  rw [skipWs_nl_indent _ _ (by decide)]
  simp

theorem parseMembers_comma (pv : List Char → Option (JsonValue × List Char))
    (f : Nat) (tail : List Char) :
    parseMembers pv (f + 1) (',' :: tail) =
      match pv tail with
      | some (v, r) =>
        match parseMembers pv f r with
        | some (vs, r2) => some (v :: vs, r2)
        | none => none
      | none => none := by
  simp only [parseMembers]
  rw [skipWs_cons_of_not _ (by decide)]
  simp

theorem parseFields_nl_close (pv : List Char → Option (JsonValue × List Char))
    (f j : Nat) (rest : List Char) :
    parseFields pv (f + 1) ('\n' :: (indent j ++ ('\x7d' :: rest))) =
      some ([], rest) := by
  simp only [parseFields]
  rw [skipWs_nl_indent _ _ (by decide)]
  simp

theorem parseFields_comma (pv : List Char → Option (JsonValue × List Char))
    (f i : Nat) (tail : List Char) :
    parseFields pv (f + 1) (',' :: '\n' :: (indent i ++ ('"' :: tail))) =
      match parseField pv tail with
      | some ((k, v), r) =>
        match parseFields pv f r with
        | some (fs, r2) => some ((k, v) :: fs, r2)
        | none => none
      | none => none := by
  simp only [parseFields]
  rw [skipWs_cons_of_not _ (by decide)]
  have h : skipWs ('\n' :: (indent i ++ ('"' :: tail))) = '"' :: tail :=
    skipWs_nl_indent _ _ (by decide)
  simp [h]

theorem parseField_eq (pv : List Char → Option (JsonValue × List Char))
    (k : List Char) (tail : List Char) :
    parseField pv (escString k ++ ('"' :: (':' :: ' ' :: tail))) =
      match pv (' ' :: tail) with
      | some (v, r3) => some ((k, v), r3)
      | none => none := by
  unfold parseField
  rw [parseStrBody_escString]
  have h : skipWs (':' :: ' ' :: tail) = ':' :: ' ' :: tail :=
    skipWs_cons_of_not _ (by decide)
  simp [h]

mutual

/-- Reading back what `prettyVal` printed recovers the value. -/
theorem parseValue_pretty (v : JsonValue) (fuel ind : Nat) (pre rest : List Char)
    (hwf : wfV v = true) (hfin : finiteV v = true) (hfuel : boundV v ≤ fuel)
    (hpre : pre.all isWs = true) (hrest : restSafe v rest = true) :
    parseValue fuel (pre ++ (prettyVal ind v ++ rest)) = some (v, rest) := by
  obtain ⟨f, rfl⟩ : ∃ f, fuel = f + 1 :=
    ⟨fuel - 1, by have := one_le_boundV v; omega⟩
  rw [parseValue_ws _ _ _ hpre]
  match v with
  | .null =>
    simp only [prettyVal, List.cons_append, List.nil_append]
    exact parseValue_null f rest
  | .jbool true =>
    simp only [prettyVal, List.cons_append, List.nil_append]
    exact parseValue_true f rest
  | .jbool false =>
    simp only [prettyVal, List.cons_append, List.nil_append]
    exact parseValue_false f rest
  | .str s =>
    simp only [prettyVal, quoteStr, List.cons_append, List.append_assoc,
      List.nil_append]
    rw [parseValue_quote, parseStrBody_escString]
  | .num tok =>
    simp only [wfV, Bool.and_eq_true, Bool.not_eq_true'] at hwf
    obtain ⟨⟨hall, hv⟩, hov⟩ := hwf
    cases tok with
    | nil => exact absurd hv (by decide)
    | cons c l =>
      have hstart := validNumTok_head hv
      simp only [prettyVal, List.cons_append]
      rw [parseValue_numStart f _ hstart]
      exact parseNum_tok rest hall hv hov (restSafe_num hrest)
  | .numOverflow b => simp [finiteV] at hfin
  | .arr [] =>
    simp only [prettyVal, List.cons_append, List.nil_append]
    rw [parseValue_open_bracket]
    simp [skipWs, isWs]
  | .arr (v :: vs) =>
    simp only [wfV, wfM, Bool.and_eq_true] at hwf
    simp only [finiteV, finiteM, Bool.and_eq_true] at hfin
    simp only [boundV] at hfuel
    obtain ⟨c2, l2, hc2, hc2ws, hc2b⟩ := prettyVal_head (ind + 2) v hwf.1
    simp only [prettyVal, List.cons_append, List.append_assoc, List.nil_append]
    rw [parseValue_open_bracket, hc2]
    simp only [List.cons_append]
    rw [skipWs_nl_indent _ _ hc2ws]
    have hv1 := parseValue_pretty v f (ind + 2) []
      (prettyMembers (ind + 2) vs ++ ('\n' :: (indent ind ++ (']' :: rest))))
      hwf.1 hfin.1 (by omega) rfl (restSafe_members v (ind + 2) vs _)
    simp only [List.nil_append, hc2, List.cons_append] at hv1
    have hm := parseMembers_pretty vs f f (ind + 2) ind rest hwf.2 hfin.2
      (by omega) (by omega)
    simp [hc2b, hv1, hm]
  | .obj [] =>
    simp only [prettyVal, List.cons_append, List.nil_append]
    rw [parseValue_open_brace]
    simp [skipWs, isWs]
  | .obj ((k, w) :: fs) =>
    simp only [wfV, wfF, Bool.and_eq_true] at hwf
    simp only [finiteV, finiteF, Bool.and_eq_true] at hfin
    simp only [boundV] at hfuel
    simp only [prettyVal, quoteStr, List.cons_append, List.append_assoc,
      List.nil_append]
    rw [parseValue_open_brace]
    rw [skipWs_nl_indent _ _ (by decide)]
    have hfld := parseField_eq (parseValue f) k
      (prettyVal (ind + 2) w ++ (prettyFields (ind + 2) fs ++
        ('\n' :: (indent ind ++ ('\x7d' :: rest)))))
    have hw1 := parseValue_pretty w f (ind + 2) []
      (prettyFields (ind + 2) fs ++ ('\n' :: (indent ind ++ ('\x7d' :: rest))))
      hwf.1 hfin.1 (by omega) rfl (restSafe_fields w (ind + 2) fs _)
    simp only [List.nil_append] at hw1
    rw [parseValue_space, hw1] at hfld
    have hfs := parseFields_pretty fs f f (ind + 2) ind rest hwf.2 hfin.2
      (by omega) (by omega)
    simp [hfld, hfs]

/-- Reading back printed array continuations. -/
theorem parseMembers_pretty (vs : List JsonValue) (fuelV fuelM i j : Nat)
    (rest : List Char) (hwf : wfM vs = true) (hfin : finiteM vs = true)
    (hM : boundM vs ≤ fuelM) (hV : boundM vs ≤ fuelV) :
    parseMembers (parseValue fuelV) fuelM
      (prettyMembers i vs ++ ('\n' :: (indent j ++ (']' :: rest)))) =
      some (vs, rest) := by
  obtain ⟨g, rfl⟩ : ∃ g, fuelM = g + 1 :=
    ⟨fuelM - 1, by have := one_le_boundM vs; omega⟩
  match vs with
  | [] =>
    simp only [prettyMembers, List.nil_append]
    exact parseMembers_nl_close _ g j rest
  | v :: vs =>
    simp only [wfM, Bool.and_eq_true] at hwf
    simp only [finiteM, Bool.and_eq_true] at hfin
    simp only [boundM] at hM hV
    simp only [prettyMembers, List.cons_append, List.append_assoc]
    rw [parseMembers_comma, parseValue_nl_indent]
    have hv1 := parseValue_pretty v fuelV i []
      (prettyMembers i vs ++ ('\n' :: (indent j ++ (']' :: rest))))
      hwf.1 hfin.1 (by omega) rfl (restSafe_members v i vs _)
    simp only [List.nil_append] at hv1
    have hm := parseMembers_pretty vs fuelV g i j rest hwf.2 hfin.2 (by omega)
      (by omega)
    simp [hv1, hm]

/-- Reading back printed object continuations. -/
theorem parseFields_pretty (fs : List (List Char × JsonValue))
    (fuelV fuelM i j : Nat) (rest : List Char) (hwf : wfF fs = true)
    (hfin : finiteF fs = true) (hM : boundF fs ≤ fuelM)
    (hV : boundF fs ≤ fuelV) :
    parseFields (parseValue fuelV) fuelM
      (prettyFields i fs ++ ('\n' :: (indent j ++ ('\x7d' :: rest)))) =
      some (fs, rest) := by
  obtain ⟨g, rfl⟩ : ∃ g, fuelM = g + 1 :=
    ⟨fuelM - 1, by have := one_le_boundF fs; omega⟩
  match fs with
  | [] =>
    simp only [prettyFields, List.nil_append]
    exact parseFields_nl_close _ g j rest
  | (k, w) :: fs =>
    simp only [wfF, Bool.and_eq_true] at hwf
    simp only [finiteF, Bool.and_eq_true] at hfin
    simp only [boundF] at hM hV
    simp only [prettyFields, quoteStr, List.cons_append, List.append_assoc,
      List.nil_append]
    rw [parseFields_comma]
    have hfld := parseField_eq (parseValue fuelV) k
      (prettyVal i w ++ (prettyFields i fs ++
        ('\n' :: (indent j ++ ('\x7d' :: rest)))))
    have hw1 := parseValue_pretty w fuelV i []
      (prettyFields i fs ++ ('\n' :: (indent j ++ ('\x7d' :: rest))))
      hwf.1 hfin.1 (by omega) rfl (restSafe_fields w i fs _)
    simp only [List.nil_append] at hw1
    rw [parseValue_space, hw1] at hfld
    have hfs := parseFields_pretty fs fuelV g i j rest hwf.2 hfin.2 (by omega)
      (by omega)
    simp [hfld, hfs]

end

theorem takeNum_all (l : List Char) : ((takeNum l).1).all isNumChar = true := by
  induction l with
  | nil => rfl
  | cons c cs ih =>
    by_cases h : isNumChar c = true
    · simp [takeNum, h, ih]
    · simp only [Bool.not_eq_true] at h
      simp [takeNum, h]

theorem parseNum_wf {input : List Char} {v : JsonValue} {r : List Char}
    (h : parseNum input = some (v, r)) : wfV v = true := by
  unfold parseNum at h
  dsimp only at h
  split at h
  · rename_i hv
    split at h
    · simp only [Option.some.injEq, Prod.mk.injEq] at h
      obtain ⟨h1, h2⟩ := h
      subst h1
      rfl
    · rename_i hov
      simp only [Option.some.injEq, Prod.mk.injEq] at h
      obtain ⟨h1, h2⟩ := h
      subst h1
      simp [wfV, takeNum_all, hv, hov]
  · exact absurd h (by simp)

theorem parseField_wf (pv : List Char → Option (JsonValue × List Char))
    (hpv : ∀ l v r, pv l = some (v, r) → wfV v = true)
    {l : List Char} {k : List Char} {w : JsonValue} {r : List Char}
    (h : parseField pv l = some ((k, w), r)) : wfV w = true := by
  unfold parseField at h
  split at h
  · exact absurd h (by simp)
  · split at h
    · exact absurd h (by simp)
    · split at h
      · split at h
        · rename_i hpveq
          simp only [Option.some.injEq, Prod.mk.injEq] at h
          obtain ⟨⟨h1, h2⟩, h3⟩ := h
          subst h2
          exact hpv _ _ _ hpveq
        · exact absurd h (by simp)
      · exact absurd h (by simp)

theorem parseMembers_wf (pv : List Char → Option (JsonValue × List Char))
    (hpv : ∀ l v r, pv l = some (v, r) → wfV v = true) :
    ∀ (fuel : Nat) (l : List Char) (vs : List JsonValue) (r : List Char),
      parseMembers pv fuel l = some (vs, r) → wfM vs = true := by
  intro fuel
  induction fuel with
  | zero => intro l vs r h; exact absurd h (by simp [parseMembers])
  | succ f ih =>
    intro l vs r h
    simp only [parseMembers] at h
    split at h
    · exact absurd h (by simp)
    · split at h
      · simp only [Option.some.injEq, Prod.mk.injEq] at h
        obtain ⟨h1, h2⟩ := h
        subst h1
        rfl
      · split at h
        · split at h
          · rename_i v1 r1 hv1
            split at h
            · rename_i vs1 r2 hrest
              simp only [Option.some.injEq, Prod.mk.injEq] at h
              obtain ⟨h1, h2⟩ := h
              subst h1
              simp only [wfM, Bool.and_eq_true]
              exact ⟨hpv _ _ _ hv1, ih _ _ _ hrest⟩
            · exact absurd h (by simp)
          · exact absurd h (by simp)
        · exact absurd h (by simp)

theorem parseFields_wf (pv : List Char → Option (JsonValue × List Char))
    (hpv : ∀ l v r, pv l = some (v, r) → wfV v = true) :
    ∀ (fuel : Nat) (l : List Char) (fs : List (List Char × JsonValue))
      (r : List Char), parseFields pv fuel l = some (fs, r) → wfF fs = true := by
  intro fuel
  induction fuel with
  | zero => intro l fs r h; exact absurd h (by simp [parseFields])
  | succ f ih =>
    intro l fs r h
    simp only [parseFields] at h
    split at h
    · exact absurd h (by simp)
    · split at h
      · simp only [Option.some.injEq, Prod.mk.injEq] at h
        obtain ⟨h1, h2⟩ := h
        subst h1
        rfl
      · split at h
        · split at h
          · exact absurd h (by simp)
          · split at h
            · split at h
              · rename_i k1 w1 r1 hfld
                split at h
                · rename_i fs1 r2 hrest
                  simp only [Option.some.injEq, Prod.mk.injEq] at h
                  obtain ⟨h1, h2⟩ := h
                  subst h1
                  simp only [wfF, Bool.and_eq_true]
                  exact ⟨parseField_wf pv hpv hfld, ih _ _ _ hrest⟩
                · exact absurd h (by simp)
              · exact absurd h (by simp)
            · exact absurd h (by simp)
        · exact absurd h (by simp)

theorem parseValue_wf :
    ∀ (fuel : Nat) (l : List Char) (v : JsonValue) (r : List Char),
      parseValue fuel l = some (v, r) → wfV v = true := by
  intro fuel
  induction fuel with
  | zero => intro l v r h; exact absurd h (by simp [parseValue])
  | succ f ih =>
    intro l v r h
    simp only [parseValue] at h
    split at h
    · exact absurd h (by simp)
    · split at h
      · -- 'n' : null
        split at h
        · simp only [Option.some.injEq, Prod.mk.injEq] at h
          obtain ⟨h1, h2⟩ := h
          subst h1
          rfl
        · exact absurd h (by simp)
      · split at h
        · -- 't' : true
          split at h
          · simp only [Option.some.injEq, Prod.mk.injEq] at h
            obtain ⟨h1, h2⟩ := h
            subst h1
            rfl
          · exact absurd h (by simp)
        · split at h
          · -- 'f' : false
            split at h
            · simp only [Option.some.injEq, Prod.mk.injEq] at h
              obtain ⟨h1, h2⟩ := h
              subst h1
              rfl
            · exact absurd h (by simp)
          · split at h
            · -- '"' : string
              split at h
              · simp only [Option.some.injEq, Prod.mk.injEq] at h
                obtain ⟨h1, h2⟩ := h
                subst h1
                rfl
              · exact absurd h (by simp)
            · split at h
              · -- '[' : array
                split at h
                · exact absurd h (by simp)
                · split at h
                  · simp only [Option.some.injEq, Prod.mk.injEq] at h
                    obtain ⟨h1, h2⟩ := h
                    subst h1
                    rfl
                  · split at h
                    · rename_i v1 r1 hv1
                      split at h
                      · rename_i vs1 r2 hmem
                        simp only [Option.some.injEq, Prod.mk.injEq] at h
                        obtain ⟨h1, h2⟩ := h
                        subst h1
                        simp only [wfV, wfM, Bool.and_eq_true]
                        exact ⟨ih _ _ _ hv1,
                          parseMembers_wf (parseValue f) ih _ _ _ _ hmem⟩
                      · exact absurd h (by simp)
                    · exact absurd h (by simp)
              · split at h
                · -- '\x7b' : object
                  split at h
                  · exact absurd h (by simp)
                  · split at h
                    · simp only [Option.some.injEq, Prod.mk.injEq] at h
                      obtain ⟨h1, h2⟩ := h
                      subst h1
                      rfl
                    · split at h
                      · split at h
                        · rename_i k1 w1 r1 hfld
                          split at h
                          · rename_i fs1 r2 hflds
                            simp only [Option.some.injEq, Prod.mk.injEq] at h
                            obtain ⟨h1, h2⟩ := h
                            subst h1
                            simp only [wfV, wfF, Bool.and_eq_true]
                            exact ⟨parseField_wf (parseValue f) ih hfld,
                              parseFields_wf (parseValue f) ih _ _ _ _ hflds⟩
                          · exact absurd h (by simp)
                        · exact absurd h (by simp)
                      · exact absurd h (by simp)
                · split at h
                  · exact parseNum_wf h
                  · exact absurd h (by simp)

mutual

theorem boundV_le_len (ind : Nat) (v : JsonValue) :
    boundV v ≤ (prettyVal ind v).length + 1 := by
  match v with
  | .null | .jbool true | .jbool false | .num _ | .numOverflow _ | .str _ =>
    simp [boundV, prettyVal]
  | .arr [] | .obj [] => simp [boundV, prettyVal]
  | .arr (v :: vs) =>
    have h1 := boundV_le_len (ind + 2) v
    have h2 := boundM_le_len (ind + 2) vs
    simp only [boundV, prettyVal, List.length_cons, List.length_append]
    omega
  | .obj ((k, w) :: fs) =>
    have h1 := boundV_le_len (ind + 2) w
    have h2 := boundF_le_len (ind + 2) fs
    simp only [boundV, prettyVal, List.length_cons, List.length_append]
    omega

theorem boundM_le_len (i : Nat) (vs : List JsonValue) :
    boundM vs ≤ (prettyMembers i vs).length + 1 := by
  match vs with
  | [] => simp [boundM, prettyMembers]
  | v :: vs =>
    have h1 := boundV_le_len i v
    have h2 := boundM_le_len i vs
    simp only [boundM, prettyMembers, List.length_cons, List.length_append]
    omega

theorem boundF_le_len (i : Nat) (fs : List (List Char × JsonValue)) :
    boundF fs ≤ (prettyFields i fs).length + 1 := by
  match fs with
  | [] => simp [boundF, prettyFields]
  | (k, w) :: fs =>
    have h1 := boundV_le_len i w
    have h2 := boundF_le_len i fs
    simp only [boundF, prettyFields, List.length_cons, List.length_append]
    omega

end

/-- Printing a well-formed value with no overflowed number and reading it
back recovers the value: `JSON.parse (JSON.stringify(v, null, 2)) = v`. -/
theorem parse_stringify2 (v : JsonValue) (hwf : wfV v = true)
    (hfin : finiteV v = true) :
    JSON.parse (JSON.stringify2 v) = some v := by
  unfold JSON.parse JSON.stringify2 parseTop
  have hdata : (String.mk (prettyVal 0 v)).data = prettyVal 0 v := rfl
  rw [hdata]
  have h := parseValue_pretty v ((prettyVal 0 v).length + 1) 0 [] [] hwf hfin
    (boundV_le_len 0 v) rfl (restSafe_nil v)
  simp only [List.nil_append, List.append_nil] at h
  rw [h]
  simp [skipWs]

/-- Every value `JSON.parse` returns is well formed. -/
theorem parse_wf {s : String} {v : JsonValue} (h : JSON.parse s = some v) :
    wfV v = true := by
  unfold JSON.parse parseTop at h
  split at h
  · rename_i v1 r1 hp
    split at h
    · simp only [Option.some.injEq] at h
      subst h
      exact parseValue_wf _ _ _ _ hp
    · exact absurd h (by simp)
  · exact absurd h (by simp)

/-- The normalization round trip: if the original text parses and no
numeric literal in it overflowed to `Infinity`, the pretty-printed text
parses back to the very same structure. -/
theorem parse_roundtrip {s : String} {v : JsonValue}
    (h : JSON.parse s = some v) (hfin : finiteV v = true) :
    JSON.parse (JSON.stringify2 v) = some v :=
  parse_stringify2 v (parse_wf h) hfin

/-! ## Claim theorems -/

/-- Claim C1: for every failed remote call, exactly one error toast is
raised, its message chosen by fault shape (structured RPC failure yields
the raw server message, another recognized error its own message text,
an unrecognized shape the fixed fallback), the same message is stored,
and the previously displayed result is cleared. -/
theorem c1_failure_single_message (st : ClientState) (nodeName : String)
    (err : RpcError) (h : jsTrim nodeName ≠ "") :
    toastsOf .error (handleSubmit nodeName (fun _ => .error err)) =
      [match err with
       | RpcError.connectError raw => raw
       | RpcError.otherError msg => msg
       | RpcError.unknownThrow => "无法获取节点配置"] ∧
    (runSubmit st nodeName (fun _ => .error err)).errorMessage =
      some (match err with
       | RpcError.connectError raw => raw
       | RpcError.otherError msg => msg
       | RpcError.unknownThrow => "无法获取节点配置") ∧
    (runSubmit st nodeName (fun _ => .error err)).response = none := by
  cases err <;>
    simp [handleSubmit, runSubmit, toastsOf, errorToMessage, applyEvent, h]

theorem c1_failure_single_message_witness :
    toastsOf .error (handleSubmit "edge-01"
        (fun _ => .error (RpcError.connectError "node not found"))) =
      ["node not found"] ∧
    (runSubmit ⟨false, none, some ⟨"edge-01", none⟩⟩ "edge-01"
        (fun _ => .error (RpcError.connectError "node not found"))).errorMessage =
      some "node not found" ∧
    (runSubmit ⟨false, none, some ⟨"edge-01", none⟩⟩ "edge-01"
        (fun _ => .error (RpcError.connectError "node not found"))).response =
      none :=
  c1_failure_single_message ⟨false, none, some ⟨"edge-01", none⟩⟩ "edge-01"
    (RpcError.connectError "node not found") (by decide)

/-- Claim C2: an input that is empty after trimming is rejected locally:
no transport dispatch happens, the fixed validation message is reported
(stored and toasted), and the displayed result is cleared. -/
theorem c2_local_validation (st : ClientState) (nodeName : String)
    (rpc : String → Except RpcError GetNodeConfigResponse)
    (h : jsTrim nodeName = "") :
    rpcCalls (handleSubmit nodeName rpc) = [] ∧
    (runSubmit st nodeName rpc).errorMessage = some "请输入节点名称" ∧
    (runSubmit st nodeName rpc).response = none ∧
    toastsOf .error (handleSubmit nodeName rpc) = ["请输入节点名称"] := by
  simp [handleSubmit, runSubmit, rpcCalls, toastsOf, applyEvent, h]

theorem c2_local_validation_witness :
    rpcCalls (handleSubmit "   " (fun n => .ok ⟨n, none⟩)) = [] ∧
    (runSubmit ⟨false, none, some ⟨"edge-01", none⟩⟩ "   "
        (fun n => .ok ⟨n, none⟩)).errorMessage = some "请输入节点名称" ∧
    (runSubmit ⟨false, none, some ⟨"edge-01", none⟩⟩ "   "
        (fun n => .ok ⟨n, none⟩)).response = none ∧
    toastsOf .error (handleSubmit "   " (fun n => .ok ⟨n, none⟩)) =
      ["请输入节点名称"] :=
  c2_local_validation ⟨false, none, some ⟨"edge-01", none⟩⟩ "   "
    (fun n => .ok ⟨n, none⟩) (by decide)

/-- Claim C3 as stated is false of the program at configJson = "1e999":
the input is syntactically valid JSON, but its value overflows the double
range to Infinity, which the builtin re-serializes as null, so re-parsing
the displayed text yields null, not a structure deep-equal to parsing the
original input. -/
theorem c3_counterexample :
    JSON.parse "1e999" ≠ none ∧
    (portMappingDetails (some ⟨PortMappingMode.SERVER, "1e999"⟩)).isJson =
      true ∧
    JSON.parse ((portMappingDetails
        (some ⟨PortMappingMode.SERVER, "1e999"⟩)).pretty) ≠
      JSON.parse "1e999" := by
  have h1 : JSON.parse "1e999" = some (JsonValue.numOverflow false) := rfl
  have h2 : (portMappingDetails
      (some ⟨PortMappingMode.SERVER, "1e999"⟩)).pretty = "null" := rfl
  have h3 : JSON.parse "null" = some JsonValue.null := rfl
  refine ⟨by rw [h1]; exact fun h => Option.noConfusion h, rfl, ?_⟩
  rw [h2, h3, h1]
  intro h
  exact JsonValue.noConfusion (Option.some.inj h)

/-- Claim C3, amended: for every configJson that parses as JSON and whose
numeric literals all stay finite as doubles (no overflow to Infinity), the
displayed text is the 2-space re-serialization, the isJson flag stays set,
and re-parsing the displayed text yields exactly the structure of the
original input. -/
theorem c3_roundtrip (pm : PortMapping) (v : JsonValue)
    (h : JSON.parse pm.configJson = some v) (hfin : finiteV v = true) :
    (portMappingDetails (some pm)).pretty = JSON.stringify2 v ∧
    (portMappingDetails (some pm)).isJson = true ∧
    JSON.parse ((portMappingDetails (some pm)).pretty) =
      JSON.parse pm.configJson := by
  have hne : pm.configJson ≠ "" := by
    intro e
    rw [e] at h
    have hnone : JSON.parse "" = none := rfl
    rw [hnone] at h
    exact Option.noConfusion h
  refine ⟨?_, ?_, ?_⟩
  · simp only [portMappingDetails, if_neg hne, h]
  · simp only [portMappingDetails, if_neg hne, h]
  · simp only [portMappingDetails, if_neg hne, h]
    exact parse_roundtrip h hfin

theorem c3_roundtrip_witness :
    (portMappingDetails (some ⟨PortMappingMode.SERVER, "\x7b\"port\":8080\x7d"⟩)).pretty =
      JSON.stringify2 (.obj [("port".data, .num "8080".data)]) ∧
    (portMappingDetails (some ⟨PortMappingMode.SERVER, "\x7b\"port\":8080\x7d"⟩)).isJson = true ∧
    JSON.parse ((portMappingDetails (some ⟨PortMappingMode.SERVER, "\x7b\"port\":8080\x7d"⟩)).pretty) =
      JSON.parse "\x7b\"port\":8080\x7d" :=
  c3_roundtrip ⟨PortMappingMode.SERVER, "\x7b\"port\":8080\x7d"⟩
    (.obj [("port".data, .num "8080".data)]) (by rfl) (by rfl)

/-- Claim C4 as stated is false at the empty string: the empty string is
not syntactically valid JSON, yet the interpretation step reports the
empty-placeholder state with the isJson flag still set and a displayed
text different from the original. -/
theorem c4_counterexample :
    JSON.parse "" = none ∧
    (portMappingDetails (some ⟨PortMappingMode.CLIENT, ""⟩)).isJson = true ∧
    (portMappingDetails (some ⟨PortMappingMode.CLIENT, ""⟩)).pretty ≠ "" :=
  ⟨rfl, rfl, by decide⟩

/-- Claim C4, amended: for every non-empty configJson string that is not
syntactically valid JSON, the displayed text equals the original string
exactly and the not-JSON flag is set. -/
theorem c4_invalid_json_verbatim (pm : PortMapping) (h1 : pm.configJson ≠ "")
    (h2 : JSON.parse pm.configJson = none) :
    portMappingDetails (some pm) =
      { hasConfig := true, isJson := false, pretty := pm.configJson } := by
  simp [portMappingDetails, h1, h2]

theorem c4_invalid_json_verbatim_witness :
    portMappingDetails (some ⟨PortMappingMode.CLIENT, "not json"⟩) =
      { hasConfig := true, isJson := false, pretty := "not json" } :=
  c4_invalid_json_verbatim ⟨PortMappingMode.CLIENT, "not json"⟩
    (by decide) (by rfl)

/-- Claim C5: a present port mapping with empty configJson yields the
present-but-empty state with the fixed placeholder, with the isJson flag
set (so no parse error is reported). -/
theorem c5_empty_config (pm : PortMapping) (h : pm.configJson = "") :
    portMappingDetails (some pm) =
      { hasConfig := true, isJson := true, pretty := "（空配置）" } := by
  simp [portMappingDetails, h]

theorem c5_empty_config_witness :
    portMappingDetails (some ⟨PortMappingMode.CLIENT, ""⟩) =
      { hasConfig := true, isJson := true, pretty := "（空配置）" } :=
  c5_empty_config ⟨PortMappingMode.CLIENT, ""⟩ rfl

/-- Claim C6: the mode label resolver is total: the three enum members map
to their fixed labels and every other mode value maps to Unknown. -/
theorem c6_mode_labels :
    getModeLabel PortMappingMode.UNSPECIFIED = "Unspecified" ∧
    getModeLabel PortMappingMode.SERVER = "Server" ∧
    getModeLabel PortMappingMode.CLIENT = "Client" ∧
    ∀ mode : PortMappingMode, mode ≠ PortMappingMode.UNSPECIFIED →
      mode ≠ PortMappingMode.SERVER → mode ≠ PortMappingMode.CLIENT →
      getModeLabel mode = "Unknown" := by
  refine ⟨rfl, rfl, rfl, ?_⟩
  intro m h0 h1 h2
  simp [getModeLabel, MODE_LABELS, h0, h1, h2]

theorem c6_mode_labels_witness : getModeLabel 5 = "Unknown" :=
  c6_mode_labels.2.2.2 5 (by decide) (by decide) (by decide)

/-- Claim C7: every submission that reaches the remote call sets the
in-flight flag before the dispatch, writes it nowhere else until the
final cleanup write, ends with the cleanup write clearing it, and leaves
the flag cleared in the final state for success and failure alike. -/
theorem c7_loading_flag (st : ClientState) (nodeName : String)
    (rpc : String → Except RpcError GetNodeConfigResponse)
    (h : jsTrim nodeName ≠ "") :
    (∃ mid, handleSubmit nodeName rpc =
        .setLoading true :: .setErrorMessage none ::
          .rpcCall (jsTrim nodeName) :: (mid ++ [.setLoading false]) ∧
        ∀ e ∈ mid, ∀ b, e ≠ Event.setLoading b) ∧
    (runSubmit st nodeName rpc).loading = false := by
  constructor
  · cases hr : rpc (jsTrim nodeName) with
    | ok result =>
      cases hpm : result.portMapping with
      | none =>
        refine ⟨[.setResponse (some result),
          .toast .success ("已加载节点「" ++
            (if result.name = "" then jsTrim nodeName else result.name) ++
            "」的配置"),
          .toast .info "该节点没有配置端口映射"], ?_, ?_⟩
        · simp [handleSubmit, h, hr, hpm]
        · intro e he b
          simp only [List.mem_cons, List.not_mem_nil, or_false] at he
          rcases he with rfl | rfl | rfl <;> simp
      | some pm =>
        refine ⟨[.setResponse (some result),
          .toast .success ("已加载节点「" ++
            (if result.name = "" then jsTrim nodeName else result.name) ++
            "」的配置")], ?_, ?_⟩
        · simp [handleSubmit, h, hr, hpm]
        · intro e he b
          simp only [List.mem_cons, List.not_mem_nil, or_false] at he
          rcases he with rfl | rfl <;> simp
    | error err =>
      refine ⟨[.setErrorMessage (some (errorToMessage err)),
        .setResponse none, .toast .error (errorToMessage err)], ?_, ?_⟩
      · simp [handleSubmit, h, hr]
      · intro e he b
        simp only [List.mem_cons, List.not_mem_nil, or_false] at he
        rcases he with rfl | rfl | rfl <;> simp
  · cases hr : rpc (jsTrim nodeName) with
    | ok result =>
      cases hpm : result.portMapping <;>
        simp [runSubmit, handleSubmit, h, hr, hpm, applyEvent]
    | error err =>
      simp [runSubmit, handleSubmit, h, hr, applyEvent]

theorem c7_loading_flag_witness :
    (∃ mid, handleSubmit "edge-01" (fun n => .ok ⟨n, none⟩) =
        .setLoading true :: .setErrorMessage none ::
          .rpcCall (jsTrim "edge-01") :: (mid ++ [.setLoading false]) ∧
        ∀ e ∈ mid, ∀ b, e ≠ Event.setLoading b) ∧
    (runSubmit ⟨false, none, none⟩ "edge-01"
      (fun n => .ok ⟨n, none⟩)).loading = false :=
  c7_loading_flag ⟨false, none, none⟩ "edge-01" (fun n => .ok ⟨n, none⟩)
    (by decide)

/-- Claim C8: a successful response without a port mapping is stored as
the displayed result, renders as the no-port-mapping state, raises exactly
one informational toast and no error, and leaves no error message. -/
theorem c8_no_mapping_notice (st : ClientState) (nodeName : String)
    (rpc : String → Except RpcError GetNodeConfigResponse)
    (result : GetNodeConfigResponse) (h : jsTrim nodeName ≠ "")
    (hr : rpc (jsTrim nodeName) = .ok result)
    (hpm : result.portMapping = none) :
    (runSubmit st nodeName rpc).response = some result ∧
    renderPortMapping (currentPortMapping (runSubmit st nodeName rpc).response) =
      .noMapping ∧
    toastsOf .info (handleSubmit nodeName rpc) = ["该节点没有配置端口映射"] ∧
    toastsOf .error (handleSubmit nodeName rpc) = [] ∧
    (runSubmit st nodeName rpc).errorMessage = none := by
  simp [runSubmit, handleSubmit, h, hr, hpm, applyEvent, toastsOf,
    renderPortMapping, currentPortMapping]

theorem c8_no_mapping_notice_witness :
    (runSubmit ⟨false, none, none⟩ "edge-02"
        (fun _ => .ok ⟨"edge-02", none⟩)).response = some ⟨"edge-02", none⟩ ∧
    renderPortMapping (currentPortMapping
        (runSubmit ⟨false, none, none⟩ "edge-02"
          (fun _ => .ok ⟨"edge-02", none⟩)).response) = .noMapping ∧
    toastsOf .info (handleSubmit "edge-02" (fun _ => .ok ⟨"edge-02", none⟩)) =
      ["该节点没有配置端口映射"] ∧
    toastsOf .error (handleSubmit "edge-02" (fun _ => .ok ⟨"edge-02", none⟩)) =
      [] ∧
    (runSubmit ⟨false, none, none⟩ "edge-02"
        (fun _ => .ok ⟨"edge-02", none⟩)).errorMessage = none :=
  c8_no_mapping_notice ⟨false, none, none⟩ "edge-02"
    (fun _ => .ok ⟨"edge-02", none⟩) ⟨"edge-02", none⟩ (by decide) rfl rfl

/-- Claim C9: every submission whose trimmed input is non-empty dispatches
exactly one transport call, carrying the trimmed name. -/
theorem c9_trimmed_dispatch (nodeName : String)
    (rpc : String → Except RpcError GetNodeConfigResponse)
    (h : jsTrim nodeName ≠ "") :
    rpcCalls (handleSubmit nodeName rpc) = [jsTrim nodeName] := by
  cases hr : rpc (jsTrim nodeName) with
  | ok result =>
    cases hpm : result.portMapping <;>
      simp [handleSubmit, rpcCalls, h, hr, hpm]
  | error err =>
    simp [handleSubmit, rpcCalls, h, hr]

theorem c9_trimmed_dispatch_witness :
    rpcCalls (handleSubmit "  edge-01  " (fun n => .ok ⟨n, none⟩)) =
      ["edge-01"] := by
  have h := c9_trimmed_dispatch "  edge-01  " (fun n => .ok ⟨n, none⟩)
    (by decide)
  simpa using h

/-- Claim C10: after any completed submission the error message and the
displayed result are never both set. -/
theorem c10_error_result_exclusive (st : ClientState) (nodeName : String)
    (rpc : String → Except RpcError GetNodeConfigResponse) :
    (runSubmit st nodeName rpc).errorMessage = none ∨
    (runSubmit st nodeName rpc).response = none := by
  by_cases h : jsTrim nodeName = ""
  · right
    simp [runSubmit, handleSubmit, h, applyEvent]
  · cases hr : rpc (jsTrim nodeName) with
    | ok result =>
      left
      cases hpm : result.portMapping <;>
        simp [runSubmit, handleSubmit, h, hr, hpm, applyEvent]
    | error err =>
      right
      simp [runSubmit, handleSubmit, h, hr, applyEvent]

end Laval
